import Mathlib

/-!
# Verification of the AI-labs-notebooks search and inference core

Shallow embedding of the generic search engines (lab1 BFS/DFS, lab2 A*) and
the Horn-clause reasoners (lab10 KB, forward chaining, backward chaining),
with theorems settling the specification claims.

Conventions used throughout:
* Python's dynamic state space is modelled by type parameters `S` (states)
  and `A` (actions) with decidable equality.
* `do_action` may raise `Exception('Invalid action')` in the concrete
  problems, so it is embedded as `S → A → Option A`'s analogue
  `do_action : S → A → Option S`, `none` standing for the raise.  The
  engines propagate the raise as an `Except.error ()` outcome.
* Unbounded `while` loops and recursion are embedded with an explicit fuel
  parameter; a result of `none` means the fuel ran out (the program is still
  running), `some r` means the program finished with observable `r`.
-/

/-- The lab1 `Problem` interface: `initial_state`, `available_actions`,
`do_action` (with `none` for the `Invalid action` raise), `is_goal`. -/
structure Problem (S A : Type) where
  initial_state : S
  available_actions : S → List A
  do_action : S → A → Option S
  is_goal : S → Bool

/-! ## lab1 `BFSAgent.bfs`

```python
def bfs(self):
    queue_of_paths = deque()
    current_path = ()
    current_state = self.problem.initial_state
    visited_states = {current_state}
    queue_of_paths.append((current_state, current_path))
    while not self.problem.is_goal(current_state) and queue_of_paths:
        for move in self.problem.available_actions(current_state):
            new_state = self.problem.do_action(current_state, move)
            if new_state not in visited_states:
                new_path = list(current_path); new_path.append(move)
                visited_states.add(new_state)
                queue_of_paths.append((new_state, tuple(new_path)))
        current_state, current_path = queue_of_paths.popleft()
    return list(current_path)
```

The `for move in ...` body is `bfsExpand` (returning the entries appended to
the queue and the grown visited set); the `while` loop is `bfsLoop`.  Since
the body appends at the back and pops from the front, and the queue is
nonempty when the body runs, `popleft` of the grown queue is the head of the
queue before the body; the embedding destructures it up front. -/

def bfsExpand [DecidableEq S] (P : Problem S A) (cur : S) (curPath : List A) :
    List A → Finset S → List (S × List A) → Except Unit (List (S × List A) × Finset S)
  | [], visited, acc => .ok (acc, visited)
  | m :: ms, visited, acc =>
    match P.do_action cur m with
    | none => .error ()
    | some new =>
      if new ∈ visited then bfsExpand P cur curPath ms visited acc
      else bfsExpand P cur curPath ms (insert new visited) (acc ++ [(new, curPath ++ [m])])

def bfsLoop [DecidableEq S] (P : Problem S A) :
    Nat → S → List A → List (S × List A) → Finset S → Option (Except Unit (List A))
  | 0, _, _, _, _ => none
  | fuel + 1, cur, curPath, queue, visited =>
    if P.is_goal cur then some (.ok curPath)
    else
      match queue with
      | [] => some (.ok curPath)
      | (s, p) :: rest =>
        match bfsExpand P cur curPath (P.available_actions cur) visited [] with
        | .error e => some (.error e)
        | .ok (newEntries, visited') => bfsLoop P fuel s p (rest ++ newEntries) visited'

def bfs [DecidableEq S] (P : Problem S A) (fuel : Nat) : Option (Except Unit (List A)) :=
  bfsLoop P fuel P.initial_state [] [(P.initial_state, [])] {P.initial_state}

/-- Execute a plan from a state, mirroring the notebooks' driver loop
`state = problem.do_action(state, action)`; an invalid action aborts. -/
def execPlan (P : Problem S A) : S → List A → Option S
  | s, [] => some s
  | s, a :: rest =>
    match P.do_action s a with
    | none => none
    | some s' => execPlan P s' rest

/-! ### Concrete lab1-style problems used as inputs below -/

/-- A three-state chain `0 →a→ 1 →a→ 2` with the goal at state `2`
(action `0` is the only move everywhere).  Finite, and the goal is
reachable in two actions. -/
def chainP : Problem Nat Nat where
  initial_state := 0
  available_actions := fun _ => [0]
  do_action := fun s a => if a = 0 ∧ s < 2 then some (s + 1) else none
  is_goal := fun s => s = 2

/-- A two-state cycle `0 →a→ 1 →a→ 0` with no goal state at all.
Finite reachable space, no reachable goal. -/
def noGoalP : Problem Nat Nat where
  initial_state := 0
  available_actions := fun _ => [0]
  do_action := fun s a => if a = 0 then some (1 - s) else none
  is_goal := fun _ => false

/-- States `0` (start), `1` (dead end, no actions), `2` (goal).
From `0`, action `0` leads to the dead end `1` and action `1` to the
goal `2`; used to exercise DFS backtracking. -/
def deadEndP : Problem Nat Nat where
  initial_state := 0
  available_actions := fun s => if s = 0 then [0, 1] else []
  do_action := fun s a =>
    if s = 0 ∧ a = 0 then some 1 else if s = 0 ∧ a = 1 then some 2 else none
  is_goal := fun s => s = 2

example : bfs chainP 10 = some (.ok [0]) := by rfl
example : bfs noGoalP 10 = some (.ok [0]) := by rfl
example : execPlan chainP 0 [0, 0] = some 2 := by decide

/-- C5: on `noGoalP` (finite space, no goal anywhere) `bfs` exhausts its
frontier but returns the plain action list `[0]` — the path of the last
dequeued state — not a failure indicator.  Note the returned value is an
ordinary `.ok` plan, indistinguishable from success, and it does not reach
a goal. -/
theorem C5_bfs_returns_plan_instead_of_failure :
    bfs noGoalP 10 = some (.ok [0]) ∧
      (∀ plan s, execPlan noGoalP 0 plan = some s → noGoalP.is_goal s = false) := by
  refine ⟨by rfl, fun plan s _ => rfl⟩

/-- C7: on the chain `0 → 1 → 2` with goal `2` and unit-cost actions, `bfs`
returns `[0]`, which does not reach the goal, although the plan `[0, 0]`
does.  The loop expands the current state before popping the next entry and
exits as soon as the queue is empty, so the final queue entry (state `1`)
is popped but never expanded and the goal behind it is never discovered. -/
theorem C7_bfs_misses_goal_on_chain :
    bfs chainP 10 = some (.ok [0]) ∧
      execPlan chainP 0 [0] = some 1 ∧ chainP.is_goal 1 = false ∧
      execPlan chainP 0 [0, 0] = some 2 ∧ chainP.is_goal 2 = true :=
  ⟨by rfl, by decide, by decide, by decide, by decide⟩

/-! ## lab1 `DFSAgent`

```python
def dfs(self):
    list_of_occured_states = [self.problem.initial_state]
    visited_states = {list_of_occured_states[-1]}
    path = []
    self.dfs_recurrence(list_of_occured_states, path, visited_states)
    return path

def dfs_recurrence(self, list_of_occured_states, path, visited_states):
    for move in self.problem.available_actions(list_of_occured_states[-1]):
        if self.problem.is_goal(list_of_occured_states[-1]) or len(path) > 100:
            return
        new_state = self.problem.do_action(list_of_occured_states[-1], move)
        if new_state not in visited_states:
            path.append(move)
            list_of_occured_states.append(new_state)
            visited_states.add(new_state)
            self.dfs_recurrence(list_of_occured_states, path, visited_states)
            if not self.problem.is_goal(list_of_occured_states[-1]):
                path.pop()
                list_of_occured_states.pop()
```

The three mutated containers become an explicit record threaded through the
computation.  `occured` keeps the Python list in reverse, so the Python
`list_of_occured_states[-1]` is `occured.headI`, `append` is `cons` and
`pop` is `tail`.  `path` keeps its natural order: `append` is `++ [m]` and
`pop` is `dropLast`.  The `for` loop over the once-computed
`available_actions(occured[-1])` list is `dfsLoop`; an early `return`
simply yields the current record. -/

structure DfsSt (S A : Type) where
  occured : List S
  path : List A
  visited : Finset S
  deriving DecidableEq

instance [DecidableEq ε] [DecidableEq α] : DecidableEq (Except ε α) := fun x y =>
  match x, y with
  | .error a, .error b => decidable_of_iff (a = b) (by simp)
  | .error _, .ok _ => .isFalse (by simp)
  | .ok _, .error _ => .isFalse (by simp)
  | .ok a, .ok b => decidable_of_iff (a = b) (by simp)

/-- One `for move in ...` loop of `dfs_recurrence`: the first argument is the
remaining part of the once-computed `available_actions(occured[-1])` list.
Entering a nested `dfs_recurrence` call restarts the loop on the fresh action
list of the pushed state.  Each step consumes one unit of fuel, so the
recursion is structural; `none` means the fuel ran out. -/
def dfsLoop [DecidableEq S] [Inhabited S] (P : Problem S A) :
    Nat → List A → DfsSt S A → Option (Except Unit (DfsSt S A))
  | 0, _, _ => none
  | _ + 1, [], st => some (.ok st)
  | fuel + 1, m :: ms, st =>
    if P.is_goal st.occured.headI || decide (st.path.length > 100) then some (.ok st)
    else
      match P.do_action st.occured.headI m with
      | none => some (.error ())
      | some new =>
        if new ∈ st.visited then dfsLoop P fuel ms st
        else
          match dfsLoop P fuel
              (P.available_actions new)
              ⟨new :: st.occured, st.path ++ [m], insert new st.visited⟩ with
          | none => none
          | some (.error e) => some (.error e)
          | some (.ok st') =>
            if P.is_goal st'.occured.headI then dfsLoop P fuel ms st'
            else dfsLoop P fuel ms ⟨st'.occured.tail, st'.path.dropLast, st'.visited⟩

def dfs_recurrence [DecidableEq S] [Inhabited S] (P : Problem S A)
    (fuel : Nat) (st : DfsSt S A) : Option (Except Unit (DfsSt S A)) :=
  dfsLoop P fuel (P.available_actions st.occured.headI) st

def dfs [DecidableEq S] [Inhabited S] (P : Problem S A) (fuel : Nat) :
    Option (Except Unit (List A)) :=
  (dfs_recurrence P fuel ⟨[P.initial_state], [], {P.initial_state}⟩).map
    (·.map DfsSt.path)

example : dfs deadEndP 10 = some (.ok [1]) := by rfl

example :
    dfs_recurrence deadEndP 10 ⟨[0], [], {0}⟩ =
      some (.ok ⟨[2, 0], [1], insert 2 (insert 1 {0})⟩) := by rfl

/-- C6 counterexample: on `deadEndP`, DFS explores the dead end `1`, backtracks
past it (state `1` is removed from the path and the occurred stack, the
returned plan is `[1]`), yet `1` still sits in the visited set afterwards:
the code never removes anything from `visited_states`. -/
theorem C6_counter_visited_not_removed :
    dfs_recurrence deadEndP 10 ⟨[0], [], {0}⟩ =
        some (.ok ⟨[2, 0], [1], insert 2 (insert 1 {0})⟩) ∧
      (1 : Nat) ∈ (insert 2 (insert 1 {0}) : Finset Nat) ∧
      (1 : Nat) ∉ [2, 0] ∧ deadEndP.do_action 0 1 = some 2 := by
  exact ⟨by rfl, by decide, by decide, by decide⟩

/-- Across any successful `dfsLoop` run the visited set only ever grows. -/
theorem dfsLoop_visited_mono [DecidableEq S] [Inhabited S] (P : Problem S A) :
    ∀ fuel ms (st r : DfsSt S A), dfsLoop P fuel ms st = some (.ok r) →
      st.visited ⊆ r.visited := by
  intro fuel
  induction fuel with
  | zero => intro ms st r h; simp [dfsLoop] at h
  | succ fuel ih =>
    intro ms st r h
    cases ms with
    | nil =>
      simp only [dfsLoop] at h
      cases h
      exact Finset.Subset.refl _
    | cons m ms =>
      simp only [dfsLoop] at h
      split at h
      · cases h; exact Finset.Subset.refl _
      · split at h
        · exact absurd h (by simp)
        · split at h
          · exact ih ms st r h
          · rename_i new _ _
            split at h
            · exact absurd h (by simp)
            · exact absurd h (by simp)
            · rename_i st' heq
              have hsub : (insert new st.visited : Finset S) ⊆ st'.visited :=
                ih _ _ _ heq
              have hsub' : st.visited ⊆ st'.visited :=
                fun x hx => hsub (Finset.mem_insert_of_mem hx)
              split at h
              · exact hsub'.trans (ih ms st' r h)
              · exact hsub'.trans
                  (ih ms ⟨st'.occured.tail, st'.path.dropLast, st'.visited⟩ r h)

/-- If a `dfsLoop` run returns without an invalid action and the state on
top of the occurred stack is not a goal, the path and the occurred stack are
exactly as they were before the call: every push performed inside was undone
by the `path.pop()` / `list_of_occured_states.pop()` backtrack. -/
theorem dfsLoop_restore [DecidableEq S] [Inhabited S] (P : Problem S A) :
    ∀ fuel ms (st r : DfsSt S A), dfsLoop P fuel ms st = some (.ok r) →
      P.is_goal r.occured.headI = false →
      r.occured = st.occured ∧ r.path = st.path := by
  intro fuel
  induction fuel with
  | zero => intro ms st r h; simp [dfsLoop] at h
  | succ fuel ih =>
    intro ms st r h hng
    cases ms with
    | nil =>
      simp only [dfsLoop] at h
      cases h
      exact ⟨rfl, rfl⟩
    | cons m ms =>
      simp only [dfsLoop] at h
      split at h
      · cases h; exact ⟨rfl, rfl⟩
      · split at h
        · exact absurd h (by simp)
        · split at h
          · exact ih ms st r h hng
          · rename_i new _ _
            split at h
            · exact absurd h (by simp)
            · exact absurd h (by simp)
            · rename_i st' heq
              split at h
              · rename_i hgoal
                have := ih ms st' r h hng
                rw [this.1] at hng
                rw [hgoal] at hng
                cases hng
              · rename_i hgoal
                have hg' : P.is_goal st'.occured.headI = false := by
                  revert hgoal
                  cases P.is_goal st'.occured.headI <;> simp
                obtain ⟨ho, hp⟩ := ih _ _ _ heq hg'
                have := ih ms _ r h hng
                rw [this.1, this.2]
                constructor
                · simp [ho]
                · simp [hp]

/-- C6 amended: when a branch is exhausted without finding a goal the
backtracked state is removed from the current path and the occurred stack
(a non-goal return restores both exactly), but it is never removed from the
visited set (the visited set only grows); a state on a path that reaches a
goal stays on the path. -/
theorem C6_backtrack_restores_path_visited_mono [DecidableEq S] [Inhabited S]
    (P : Problem S A) (fuel : Nat) (st r : DfsSt S A)
    (h : dfs_recurrence P fuel st = some (.ok r)) :
    st.visited ⊆ r.visited ∧
      (P.is_goal r.occured.headI = false → r.occured = st.occured ∧ r.path = st.path) := by
  exact ⟨dfsLoop_visited_mono P fuel _ st r h, dfsLoop_restore P fuel _ st r h⟩

/-- Witness for the amended C6 theorem: the dead-end branch of `deadEndP`
(state `1` pushed on the stack) returns with no goal found; the visited
set grew and the stack/path are restored. -/
theorem C6_amended_witness :
    dfs_recurrence deadEndP 9 ⟨[1, 0], [0], {0, 1}⟩ =
        some (.ok ⟨[1, 0], [0], {0, 1}⟩) ∧
      ({0, 1} : Finset Nat) ⊆ ({0, 1} : Finset Nat) ∧
      ([1, 0] : List Nat) = [1, 0] ∧ ([0] : List Nat) = [0] := by
  have h : dfs_recurrence deadEndP 9 ⟨[1, 0], [0], {0, 1}⟩ =
      some (.ok ⟨[1, 0], [0], {0, 1}⟩) := by rfl
  have := C6_backtrack_restores_path_visited_mono deadEndP 9
    ⟨[1, 0], [0], {0, 1}⟩ ⟨[1, 0], [0], {0, 1}⟩ h
  exact ⟨h, this.1, (this.2 (by decide)).1, (this.2 (by decide)).2⟩

/-! ## lab2 `astar`

```python
def astar(problem: Problem):
    queue = PriorityQueue()
    current_state = problem.initial_state
    path = ()
    cumulative_costs = 0
    visited_states_with_dist_from_start = {current_state: 0}
    expected_distance_from_goal = problem.heuristic(current_state) + cumulative_costs
    queue.put((expected_distance_from_goal, current_state, path, cumulative_costs))
    count = 0
    while queue:
        expected_distance_from_goal, current_state, path, cumulative_costs = queue.get()
        if problem.is_goal(current_state):
            return path
        for action in problem.available_actions(current_state):
            count += 1
            next_state = problem.do_action(current_state, action)
            new_path = list(path); new_path.append(action)
            new_cumulative_costs = cumulative_costs + problem.action_cost(current_state, action)
            expected_distance_from_goal = problem.heuristic(next_state) + cumulative_costs
            if next_state not in visited_states_with_dist_from_start.keys():
                visited_states_with_dist_from_start.update({next_state: expected_distance_from_goal})
            elif expected_distance_from_goal < visited_states_with_dist_from_start[next_state]:
                visited_states_with_dist_from_start[next_state] = expected_distance_from_goal
            else:
                continue
            queue.put((expected_distance_from_goal, next_state, tuple(new_path), new_cumulative_costs))
    print("there is no solution for this problem")
    return
```

Embedding notes, mirroring the source exactly:
* costs and heuristic values are integers (`Int`); the concrete problems
  below use integer values only, as the notebook's vacuum problems do;
* a queue entry is the Python 4-tuple
  `(expected_distance_from_goal, state, path, cumulative_costs)`;
  `queue.get()` returns the minimum entry in the lexicographic tuple order
  Python's heap uses, embedded by `entryLtB`/`popMin`;
* `queue.PriorityQueue` defines neither a `__len__` nor a `__bool__`
  method, so the `while queue:` test sees an always-truthy object —
  `pqTruthy` is constantly `true` and the `print`/`return None` epilogue
  (`.noSolution`) is dead code; `queue.get()` on an exhausted queue blocks
  forever waiting for another thread, the terminal observable `.blocked`;
* `pushLog` is a ghost field recording every entry ever `put`, used to
  state the frontier-key claim; it never influences control flow. -/

structure CProblem (S A : Type) where
  initial_state : S
  available_actions : S → List A
  do_action : S → A → Option S
  is_goal : S → Bool
  action_cost : S → A → Int
  heuristic : S → Int

/-- Forget costs: lets `execPlan` run lab2 problems. -/
def CProblem.toProblem (P : CProblem S A) : Problem S A :=
  ⟨P.initial_state, P.available_actions, P.do_action, P.is_goal⟩

/-- Total action-cost of a plan executed from `s` (for stating optimality). -/
def planCost (P : CProblem S A) : S → List A → Option Int
  | _, [] => some 0
  | s, a :: rest =>
    match P.do_action s a with
    | none => none
    | some s' => (planCost P s' rest).map (fun c => P.action_cost s a + c)

/-- Python list/tuple lexicographic `<`. -/
def listLtB [LinearOrder A] : List A → List A → Bool
  | [], [] => false
  | [], _ :: _ => true
  | _ :: _, [] => false
  | a :: as, b :: bs => if a < b then true else if b < a then false else listLtB as bs

/-- `(expected_distance_from_goal, state, path, cumulative_costs)`. -/
def AEntry (S A : Type) : Type := Int × S × List A × Int

/-- Python's tuple comparison on queue entries (lexicographic). -/
def entryLtB [LinearOrder S] [LinearOrder A] : AEntry S A → AEntry S A → Bool
  | (e1, s1, p1, c1), (e2, s2, p2, c2) =>
    if e1 < e2 then true else if e2 < e1 then false
    else if s1 < s2 then true else if s2 < s1 then false
    else if listLtB p1 p2 then true else if listLtB p2 p1 then false
    else decide (c1 < c2)

/-- `queue.get()`: remove the minimum entry (leftmost among equal ones). -/
def popMin [LinearOrder S] [LinearOrder A] :
    List (AEntry S A) → Option (AEntry S A × List (AEntry S A))
  | [] => none
  | e :: es =>
    match popMin es with
    | none => some (e, [])
    | some (m, rest) => if entryLtB m e then some (m, e :: rest) else some (e, es)

/-- `while queue:` — `queue.PriorityQueue` has no `__bool__`/`__len__`, so
the object is always truthy, whatever its contents. -/
def pqTruthy (_ : List (AEntry S A)) : Bool := true

structure AState (S A : Type) where
  queue : List (AEntry S A)
  visited : S → Option Int
  count : Nat
  pushLog : List (AEntry S A)

/-- Observable outcomes of `astar`: a returned `path`, the dead
`return None` after the loop, blocking forever inside `queue.get()`, or
the `Invalid action` raise escaping. -/
inductive AOut (A : Type) where
  | plan (p : List A)
  | noSolution
  | blocked
  | invalid
  deriving DecidableEq

/-- The `for action in problem.available_actions(current_state):` body. -/
def astarExpand [DecidableEq S] (P : CProblem S A) (cur : S) (path : List A) (cum : Int) :
    List A → AState S A → Except Unit (AState S A)
  | [], st => .ok st
  | a :: as, st =>
    let st := { st with count := st.count + 1 }
    match P.do_action cur a with
    | none => .error ()
    | some next =>
      let newPath := path ++ [a]
      let newCum := cum + P.action_cost cur a
      let expected := P.heuristic next + cum
      let entry : AEntry S A := (expected, next, newPath, newCum)
      match st.visited next with
      | none =>
        astarExpand P cur path cum as
          { st with
            queue := st.queue ++ [entry]
            visited := fun s => if s = next then some expected else st.visited s
            pushLog := st.pushLog ++ [entry] }
      | some v =>
        if expected < v then
          astarExpand P cur path cum as
            { st with
              queue := st.queue ++ [entry]
              visited := fun s => if s = next then some expected else st.visited s
              pushLog := st.pushLog ++ [entry] }
        else astarExpand P cur path cum as st

def astarLoop [DecidableEq S] [LinearOrder S] [LinearOrder A] (P : CProblem S A) :
    Nat → AState S A → Option (AOut A × AState S A)
  | 0, _ => none
  | fuel + 1, st =>
    if pqTruthy st.queue then
      match popMin st.queue with
      | none => some (.blocked, st)
      | some ((_, cur, path, cum), rest) =>
        if P.is_goal cur then some (.plan path, { st with queue := rest })
        else
          match astarExpand P cur path cum (P.available_actions cur)
              { st with queue := rest } with
          | .error _ => some (.invalid, { st with queue := rest })
          | .ok st' => astarLoop P fuel st'
    else some (.noSolution, st)

def astarInit [DecidableEq S] (P : CProblem S A) : AState S A :=
  let entry : AEntry S A := (P.heuristic P.initial_state + 0, P.initial_state, [], 0)
  { queue := [entry]
    visited := fun s => if s = P.initial_state then some 0 else none
    count := 0
    pushLog := [entry] }

def astar [DecidableEq S] [LinearOrder S] [LinearOrder A] (P : CProblem S A) (fuel : Nat) :
    Option (AOut A) :=
  (astarLoop P fuel (astarInit P)).map Prod.fst

/-- Ghost observation: every entry ever `put` on the frontier, in order. -/
def astarPushes [DecidableEq S] [LinearOrder S] [LinearOrder A]
    (P : CProblem S A) (fuel : Nat) : Option (List (AEntry S A)) :=
  (astarLoop P fuel (astarInit P)).map (fun r => r.2.pushLog)

/-! ### Concrete lab2-style problems -/

/-- Four states `0` (start), `1`, `2`, `3` (goal).  Edges: `0 →(a0,cost 10)→ 1`,
`0 →(a1,cost 2)→ 2`, `1 →(a0,cost 1)→ 3`, `2 →(a0,cost 100)→ 3`.  Heuristic
`h(0)=0, h(1)=1, h(2)=2, h(3)=0`: nonnegative, consistent and admissible
(cheapest goal plan is `[0,0]` with cost 11). -/
def optP : CProblem Nat Nat where
  initial_state := 0
  available_actions := fun s => if s = 0 then [0, 1] else if s = 1 ∨ s = 2 then [0] else []
  do_action := fun s a =>
    if s = 0 ∧ a = 0 then some 1
    else if s = 0 ∧ a = 1 then some 2
    else if s = 1 ∧ a = 0 then some 3
    else if s = 2 ∧ a = 0 then some 3
    else none
  is_goal := fun s => s = 3
  action_cost := fun s a =>
    if s = 0 ∧ a = 0 then 10 else if s = 0 ∧ a = 1 then 2
    else if s = 1 then 1 else if s = 2 then 100 else 0
  heuristic := fun s => if s = 1 then 1 else if s = 2 then 2 else 0

/-- The no-goal cycle as a lab2 problem: unit costs, zero heuristic. -/
def noGoalC : CProblem Nat Nat where
  initial_state := 0
  available_actions := fun _ => [0]
  do_action := fun s a => if a = 0 then some (1 - s) else none
  is_goal := fun _ => false
  action_cost := fun _ _ => 1
  heuristic := fun _ => 0

example : astar optP 10 = some (.plan [1, 0]) := by rfl
example : astar noGoalC 10 = some .blocked := by rfl
example : astarPushes optP 10 =
    some [(0, 0, [], 0), (1, 1, [0], 10), (2, 2, [1], 2), (10, 3, [0, 0], 11),
      (2, 3, [1, 0], 102)] := by rfl

/-- The `print("there is no solution...")`/`return None` epilogue of `astar`
is dead code: since `while queue:` tests an always-truthy `PriorityQueue`
object, no run, on any problem and any fuel, ever reaches it. -/
theorem astarLoop_never_noSolution [DecidableEq S] [LinearOrder S] [LinearOrder A]
    (P : CProblem S A) :
    ∀ fuel st r, astarLoop P fuel st = some r → r.1 ≠ AOut.noSolution := by
  intro fuel
  induction fuel with
  | zero => intro st r h; simp [astarLoop] at h
  | succ fuel ih =>
    intro st r h
    simp only [astarLoop, pqTruthy, if_true] at h
    split at h
    · cases h; simp
    · rename_i e rest heq
      split at h
      · cases h; simp
      · split at h
        · cases h; simp
        · exact ih _ r h

/-- C2: on `noGoalC` (finite two-state cycle, no goal anywhere) `astar`
exhausts its frontier and then blocks forever inside `queue.get()`; it never
returns the explicit "no solution" result, which is unreachable for every
problem and fuel because `while queue:` tests an always-truthy object. -/
theorem C2_astar_blocks_on_exhausted_frontier :
    astar noGoalC 10 = some .blocked ∧
      ∀ fuel, astar noGoalC fuel ≠ some .noSolution := by
  refine ⟨by rfl, fun fuel h => ?_⟩
  unfold astar at h
  cases heq : astarLoop noGoalC fuel (astarInit noGoalC) with
  | none => rw [heq] at h; simp at h
  | some r =>
    rw [heq] at h
    have hr : r.1 = AOut.noSolution := by simpa using h
    exact astarLoop_never_noSolution noGoalC fuel _ r heq hr

/-- C3: on `optP`, the complete log of entries ever pushed contains
`(1, 1, [0], 10)`: priority `1`, state `1`, stored path `[0]` whose
accumulated cost is `g = 10`, while `g + h(1) = 10 + 1 = 11 ≠ 1`.  The code
computes the priority as `heuristic(next_state) + cumulative_costs` with the
parent's `cumulative_costs`, not `new_cumulative_costs`. -/
theorem C3_push_priority_not_g_plus_h :
    astarPushes optP 10 =
        some [(0, 0, [], 0), (1, 1, [0], 10), (2, 2, [1], 2), (10, 3, [0, 0], 11),
          (2, 3, [1, 0], 102)] ∧
      ((1 : Int), (1 : Nat), ([0] : List Nat), (10 : Int)) ∈
        [((0 : Int), (0 : Nat), ([] : List Nat), (0 : Int)), (1, 1, [0], 10),
          (2, 2, [1], 2), (10, 3, [0, 0], 11), (2, 3, [1, 0], 102)] ∧
      planCost optP 0 [0] = some 10 ∧
      (1 : Int) ≠ 10 + optP.heuristic 1 := by
  exact ⟨by rfl, by decide, by decide, by decide⟩

/-- All of C4's preconditions hold for `optP` over its four states:
nonnegative action costs, nonnegative heuristic, consistency
`h(s) ≤ cost(s,a) + h(s')` along every edge. -/
def optP_preconds : Bool :=
  ([0, 1, 2, 3] : List Nat).all fun s =>
    decide (0 ≤ optP.heuristic s) &&
      (optP.available_actions s).all fun a =>
        decide (0 ≤ optP.action_cost s a) &&
          match optP.do_action s a with
          | some s' => decide (optP.heuristic s ≤ optP.action_cost s a + optP.heuristic s')
          | none => true

/-- C4: on `optP` — nonnegative costs, nonnegative admissible consistent
heuristic, finite space, reachable goal — `astar` returns the plan `[1, 0]`
of cost `102`, although `[0, 0]` reaches the goal with cost `11`.  The
returned cost is not minimal: the mis-keyed frontier (see C3) makes the
expensive branch look cheap. -/
theorem C4_astar_returns_suboptimal_plan :
    astar optP 10 = some (.plan [1, 0]) ∧
      execPlan optP.toProblem 0 [1, 0] = some 3 ∧ optP.is_goal 3 = true ∧
      planCost optP 0 [1, 0] = some 102 ∧
      execPlan optP.toProblem 0 [0, 0] = some 3 ∧
      planCost optP 0 [0, 0] = some 11 ∧ (11 : Int) < 102 ∧
      optP_preconds = true ∧ optP.heuristic 3 = 0 := by
  exact ⟨by rfl, by decide, by decide, by decide, by decide, by decide, by decide,
    by decide, by decide⟩

/-! ## C10: the engines only execute actions listed by `available_actions`

Each engine calls `do_action(s, move)` only with a `move` drawn from
`available_actions(s)` for the very same `s`, so on a problem whose
`do_action` succeeds on every listed action (and may raise on anything else,
like `VacuumProblem`'s `raise Exception('Invalid action')`), the raise is
unreachable: no run ever produces the invalid-action outcome. -/

theorem bfsExpand_no_error [DecidableEq S] (P : Problem S A) (cur : S) (curPath : List A) :
    ∀ ms visited acc, (∀ m ∈ ms, (P.do_action cur m).isSome) →
      ∀ e, bfsExpand P cur curPath ms visited acc ≠ .error e := by
  intro ms
  induction ms with
  | nil => intro visited acc _ e h; simp [bfsExpand] at h
  | cons m ms ih =>
    intro visited acc hm e h
    simp only [bfsExpand] at h
    rcases hsome : P.do_action cur m with _ | new
    · have := hm m (by simp)
      rw [hsome] at this
      simp at this
    · rw [hsome] at h
      simp only [] at h
      split at h
      · exact ih _ _ (fun x hx => hm x (by simp [hx])) e h
      · exact ih _ _ (fun x hx => hm x (by simp [hx])) e h

theorem bfsLoop_no_error [DecidableEq S] (P : Problem S A)
    (hP : ∀ s a, a ∈ P.available_actions s → (P.do_action s a).isSome) :
    ∀ fuel cur curPath queue visited e,
      bfsLoop P fuel cur curPath queue visited ≠ some (.error e) := by
  intro fuel
  induction fuel with
  | zero => intro cur curPath queue visited e h; simp [bfsLoop] at h
  | succ fuel ih =>
    intro cur curPath queue visited e h
    simp only [bfsLoop] at h
    split at h
    · simp at h
    · split at h
      · simp at h
      · rename_i s p rest
        split at h
        · rename_i e' heq
          exact bfsExpand_no_error P cur curPath (P.available_actions cur) visited []
            (fun m hm => hP cur m hm) e' heq
        · exact ih _ _ _ _ e h

theorem dfsLoop_no_error [DecidableEq S] [Inhabited S] (P : Problem S A)
    (hP : ∀ s a, a ∈ P.available_actions s → (P.do_action s a).isSome) :
    ∀ fuel ms (st : DfsSt S A),
      (P.is_goal st.occured.headI = true ∨
        ∀ m ∈ ms, m ∈ P.available_actions st.occured.headI) →
      ∀ e, dfsLoop P fuel ms st ≠ some (.error e) := by
  intro fuel
  induction fuel with
  | zero => intro ms st _ e h; simp [dfsLoop] at h
  | succ fuel ih =>
    intro ms st hinv e h
    cases ms with
    | nil => simp [dfsLoop] at h
    | cons m ms =>
      simp only [dfsLoop] at h
      split at h
      · simp at h
      · rename_i hcond
        have hng : P.is_goal st.occured.headI = false := by
          revert hcond
          cases P.is_goal st.occured.headI <;> simp
        have hms : ∀ x ∈ m :: ms, x ∈ P.available_actions st.occured.headI := by
          rcases hinv with hg | hl
          · rw [hg] at hng; cases hng
          · exact hl
        rcases hsome : P.do_action st.occured.headI m with _ | new
        · have := hP st.occured.headI m (hms m (by simp))
          rw [hsome] at this
          simp at this
        · rw [hsome] at h
          simp only [] at h
          split at h
          · exact ih ms st (Or.inr fun x hx => hms x (by simp [hx])) e h
          · split at h
            · simp at h
            · rename_i e' heq
              exact ih (P.available_actions new)
                ⟨new :: st.occured, st.path ++ [m], insert new st.visited⟩
                (Or.inr fun x hx => hx) e' heq
            · rename_i st' heq
              split at h
              · rename_i hgoal
                exact ih ms st' (Or.inl hgoal) e h
              · rename_i hgoal
                have hg' : P.is_goal st'.occured.headI = false := by
                  revert hgoal
                  cases P.is_goal st'.occured.headI <;> simp
                have hrest := dfsLoop_restore P fuel (P.available_actions new)
                  ⟨new :: st.occured, st.path ++ [m], insert new st.visited⟩ st' heq hg'
                have hhead : st'.occured.tail = st.occured := by
                  simp [hrest.1]
                have : (⟨st'.occured.tail, st'.path.dropLast, st'.visited⟩ :
                    DfsSt S A).occured.headI = st.occured.headI := by
                  simp [hhead]
                refine ih ms _ (Or.inr fun x hx => ?_) e h
                rw [this]
                exact hms x (by simp [hx])

theorem astarExpand_no_error [DecidableEq S] (P : CProblem S A)
    (cur : S) (path : List A) (cum : Int) :
    ∀ as st, (∀ a ∈ as, (P.do_action cur a).isSome) →
      ∀ e, astarExpand P cur path cum as st ≠ .error e := by
  intro as
  induction as with
  | nil => intro st _ e h; simp [astarExpand] at h
  | cons a as ih =>
    intro st ha e h
    simp only [astarExpand] at h
    rcases hsome : P.do_action cur a with _ | next
    · have := ha a (by simp)
      rw [hsome] at this
      simp at this
    · rw [hsome] at h
      simp only [] at h
      split at h
      · exact ih _ (fun x hx => ha x (by simp [hx])) e h
      · split at h
        · exact ih _ (fun x hx => ha x (by simp [hx])) e h
        · exact ih _ (fun x hx => ha x (by simp [hx])) e h

theorem astarLoop_no_invalid [DecidableEq S] [LinearOrder S] [LinearOrder A]
    (P : CProblem S A)
    (hP : ∀ s a, a ∈ P.available_actions s → (P.do_action s a).isSome) :
    ∀ fuel st r, astarLoop P fuel st = some r → r.1 ≠ AOut.invalid := by
  intro fuel
  induction fuel with
  | zero => intro st r h; simp [astarLoop] at h
  | succ fuel ih =>
    intro st r h
    simp only [astarLoop, pqTruthy, if_true] at h
    split at h
    · cases h; simp
    · rename_i e rest heq
      split at h
      · cases h; simp
      · split at h
        · rename_i e' heq'
          exact absurd heq'
            (astarExpand_no_error P _ _ _ (P.available_actions _) _
              (fun m hm => hP _ m hm) e')
        · exact ih _ r h

/-- C10: every `do_action` call issued by the BFS, DFS and A* engines uses
an action taken from `available_actions` of that very state, so on problems
whose `do_action` succeeds exactly on listed actions the invalid-action
error branch is unreachable: no engine run, with any fuel, yields the
invalid-action outcome. -/
theorem C10_engines_call_only_available_actions [DecidableEq S] [Inhabited S]
    [LinearOrder S] [LinearOrder A] (P : Problem S A) (Q : CProblem S A)
    (hP : ∀ s a, a ∈ P.available_actions s → (P.do_action s a).isSome)
    (hQ : ∀ s a, a ∈ Q.available_actions s → (Q.do_action s a).isSome) :
    (∀ fuel, bfs P fuel ≠ some (.error ())) ∧
      (∀ fuel, dfs P fuel ≠ some (.error ())) ∧
      (∀ fuel, astar Q fuel ≠ some .invalid) := by
  refine ⟨fun fuel => bfsLoop_no_error P hP fuel _ _ _ _ (), fun fuel h => ?_,
    fun fuel h => ?_⟩
  · unfold dfs dfs_recurrence at h
    cases heq : dfsLoop P fuel
        (P.available_actions (⟨[P.initial_state], [], {P.initial_state}⟩ :
          DfsSt S A).occured.headI)
        ⟨[P.initial_state], [], {P.initial_state}⟩ with
    | none => rw [heq] at h; simp at h
    | some r =>
      rw [heq] at h
      cases r with
      | error e =>
        exact dfsLoop_no_error P hP fuel _ _ (Or.inr fun m hm => hm) e heq
      | ok st => simp [Except.map] at h
  · unfold astar at h
    cases heq : astarLoop Q fuel (astarInit Q) with
    | none => rw [heq] at h; simp at h
    | some r =>
      rw [heq] at h
      have hr : r.1 = AOut.invalid := by simpa using h
      exact astarLoop_no_invalid Q hQ fuel _ r heq hr

/-- Witness for C10 at the concrete cycle problems (whose `do_action`
succeeds on the one listed action everywhere). -/
theorem C10_witness :
    (∀ (s : Nat) a, a ∈ noGoalP.available_actions s → (noGoalP.do_action s a).isSome) ∧
      (∀ (s : Nat) a, a ∈ noGoalC.available_actions s → (noGoalC.do_action s a).isSome) ∧
      bfs noGoalP 10 ≠ some (.error ()) ∧ dfs noGoalP 10 ≠ some (.error ()) ∧
      astar noGoalC 10 ≠ some .invalid := by
  have hP : ∀ (s : Nat) a, a ∈ noGoalP.available_actions s →
      (noGoalP.do_action s a).isSome := by
    intro s a ha
    have : a = 0 := by simpa [noGoalP] using ha
    subst this
    simp [noGoalP]
  have hQ : ∀ (s : Nat) a, a ∈ noGoalC.available_actions s →
      (noGoalC.do_action s a).isSome := by
    intro s a ha
    have : a = 0 := by simpa [noGoalC] using ha
    subst this
    simp [noGoalC]
  have main := C10_engines_call_only_available_actions noGoalP noGoalC hP hQ
  exact ⟨hP, hQ, main.1 10, main.2.1 10, main.2.2 10⟩

/-! ## lab10 `KB`

```python
class KB:
    def __init__(self):
        self.clauses = []
        self.symbols = set()

    def add(self, premise, conclusion):
        self.clauses.append((premise, conclusion))
        self.symbols |= set(premise)
        self.symbols.add(conclusion)

    def copy(self):
        result = KB()
        result.clauses.extend(self.clauses)
        result.symbols |= self.symbols
        return result
```

The frame claim (C8) is about aliasing: `copy` must yield a KB whose later
mutation cannot touch the original.  The embedding therefore models the
Python heap explicitly: a KB object is a pair of references into a store of
list objects and a store of set objects.  `KB()` allocates a fresh empty
list and set; `add` mutates the store cells in place; `copy` allocates a
fresh list/set initialized with the contents of the source's cells (that is
what `extend` on a new `[]` and `|=` on a new `set()` do — they copy
contents, they do not alias the source objects). -/

/-- The heap: `nL`/`nS` are allocation counters, `lists`/`sets` the cells.
A clause is `(premise, conclusion)` with the premise kept as the Python
list passed to `add`. -/
structure KBHeap (α : Type) where
  nL : Nat
  lists : Nat → List (List α × α)
  nS : Nat
  sets : Nat → Finset α

/-- A `KB` object: references to its `clauses` list and `symbols` set. -/
structure KBObj where
  cl : Nat
  sy : Nat

/-- `KB()`. -/
def KB.new (h : KBHeap α) : KBObj × KBHeap α :=
  (⟨h.nL, h.nS⟩,
    ⟨h.nL + 1, fun i => if i = h.nL then [] else h.lists i,
      h.nS + 1, fun i => if i = h.nS then ∅ else h.sets i⟩)

/-- `kb.add(premise, conclusion)`: append the clause to the referenced list,
union the premise atoms and insert the conclusion into the referenced set. -/
def KB.add [DecidableEq α] (o : KBObj) (premise : List α) (conclusion : α)
    (h : KBHeap α) : KBHeap α :=
  { h with
    lists := fun i => if i = o.cl then h.lists o.cl ++ [(premise, conclusion)] else h.lists i
    sets := fun i =>
      if i = o.sy then insert conclusion (h.sets o.sy ∪ premise.toFinset) else h.sets i }

/-- `kb.copy()`: `KB()` then `result.clauses.extend(self.clauses)` and
`result.symbols |= self.symbols` — fresh cells holding copies of the
contents. -/
def KB.copy (o : KBObj) (h : KBHeap α) : KBObj × KBHeap α :=
  (⟨h.nL, h.nS⟩,
    ⟨h.nL + 1, fun i => if i = h.nL then h.lists o.cl else h.lists i,
      h.nS + 1, fun i => if i = h.nS then h.sets o.sy else h.sets i⟩)

def clausesOf (h : KBHeap α) (o : KBObj) : List (List α × α) := h.lists o.cl

def symbolsOf (h : KBHeap α) (o : KBObj) : Finset α := h.sets o.sy

/-- C8: copying a KB and adding a clause to the copy leaves the original's
`clauses` and `symbols` untouched, while the copy's `clauses` gains exactly
the new clause at the end and the copy's `symbols` contains everything the
original had plus the premise atoms and the conclusion. -/
theorem C8_kb_copy_independent [DecidableEq α] (h : KBHeap α) (o : KBObj)
    (p : List α) (c : α) (hcl : o.cl < h.nL) (hsy : o.sy < h.nS) :
    clausesOf ((KB.copy o h).1 |> fun o2 => KB.add o2 p c (KB.copy o h).2) o =
        clausesOf h o ∧
      symbolsOf ((KB.copy o h).1 |> fun o2 => KB.add o2 p c (KB.copy o h).2) o =
        symbolsOf h o ∧
      clausesOf ((KB.copy o h).1 |> fun o2 => KB.add o2 p c (KB.copy o h).2)
          (KB.copy o h).1 = clausesOf h o ++ [(p, c)] ∧
      symbolsOf h o ∪ p.toFinset ∪ {c} ⊆
        symbolsOf ((KB.copy o h).1 |> fun o2 => KB.add o2 p c (KB.copy o h).2)
          (KB.copy o h).1 := by
  have hne : o.cl ≠ h.nL := Nat.ne_of_lt hcl
  have hne' : o.sy ≠ h.nS := Nat.ne_of_lt hsy
  refine ⟨?_, ?_, ?_, ?_⟩
  · simp [KB.copy, KB.add, clausesOf, hne]
  · simp [KB.copy, KB.add, symbolsOf, hne']
  · simp [KB.copy, KB.add, clausesOf]
  · simp only [KB.copy, KB.add, symbolsOf]
    intro x hx
    simp only [Finset.mem_union, Finset.mem_singleton] at hx
    simp only [if_true, eq_self_iff_true, Finset.mem_insert, Finset.mem_union]
    rcases hx with (hx | hx) | hx
    · exact Or.inr (Or.inl hx)
    · exact Or.inr (Or.inr (by simpa using hx))
    · exact Or.inl hx

/-- A one-object heap: cell `0` holds the clause list `[([], 0)]` and the
symbol set `{0}` (the KB produced by `KB()` then `add([], 0)`). -/
def kbH1 : KBHeap Nat :=
  ⟨1, fun i => if i = 0 then [([], 0)] else [],
    1, fun i => if i = 0 then {0} else ∅⟩

/-- Witness for C8: a one-cell heap holding the KB `{([], a)}` over `Nat`
atoms (`a = 0`), copied and extended with the clause `[1] → 2`. -/
theorem C8_witness :
    (0 : Nat) < 1 ∧ (0 : Nat) < 1 ∧
      clausesOf
          ((KB.copy ⟨0, 0⟩ kbH1).1 |>
            fun o2 => KB.add o2 [1] 2 (KB.copy ⟨0, 0⟩ kbH1).2) ⟨0, 0⟩ =
        clausesOf kbH1 ⟨0, 0⟩ ∧
      symbolsOf
          ((KB.copy ⟨0, 0⟩ kbH1).1 |>
            fun o2 => KB.add o2 [1] 2 (KB.copy ⟨0, 0⟩ kbH1).2) ⟨0, 0⟩ =
        symbolsOf kbH1 ⟨0, 0⟩ ∧
      clausesOf
          ((KB.copy ⟨0, 0⟩ kbH1).1 |>
            fun o2 => KB.add o2 [1] 2 (KB.copy ⟨0, 0⟩ kbH1).2)
          (KB.copy ⟨0, 0⟩ kbH1).1 = clausesOf kbH1 ⟨0, 0⟩ ++ [([1], 2)] ∧
      symbolsOf kbH1 ⟨0, 0⟩ ∪ ([1] : List Nat).toFinset ∪ {2} ⊆
        symbolsOf
          ((KB.copy ⟨0, 0⟩ kbH1).1 |>
            fun o2 => KB.add o2 [1] 2 (KB.copy ⟨0, 0⟩ kbH1).2)
          (KB.copy ⟨0, 0⟩ kbH1).1 := by
  have := C8_kb_copy_independent kbH1 ⟨0, 0⟩ [1] 2 (by decide) (by decide)
  exact ⟨by decide, by decide, this.1, this.2.1, this.2.2.1, this.2.2.2⟩

/-! ## lab10 reasoners

For the reasoners (which never share containers between KB objects) the KB
is used at value level: the clause list plus the symbol set. -/

structure KB (α : Type) where
  clauses : List (List α × α)
  symbols : Finset α

/-- `[symbol for premises, symbol in self.kb.clauses if not premises]`. -/
def KB.facts [DecidableEq α] (kb : KB α) : List α :=
  kb.clauses.filterMap fun c => if c.1 = [] then some c.2 else none

/-- Membership in the minimal model (least fixpoint) of a Horn-clause KB:
the conclusion of a clause all of whose premises are entailed is entailed. -/
inductive Entails (kb : KB α) : α → Prop where
  | step (prem : List α) (concl : α) : (prem, concl) ∈ kb.clauses →
      (∀ p ∈ prem, Entails kb p) → Entails kb concl

/-! ### `ForwardChainingReasoner`

```python
def _infer(self):
    count = {(tuple(clause[0]), clause[1]): len(clause[0]) for clause in self.kb.clauses}
    inferred = {symbol: False for symbol in self.kb.symbols}
    agenda = [symbol for premises, symbol in self.kb.clauses if not premises]
    was_in_agenda = set(agenda)
    while agenda:
        p = agenda.pop()
        inferred[p] = True
        for clause in count:
            if (p not in clause[0]):
                continue
            count[clause] -= 1
            if not count[clause] and clause[1] not in was_in_agenda:
                was_in_agenda.add(clause[1])
                agenda.append(clause[1])
    return [symbol for symbol, val in inferred.items() if val]
```

Embedding choices:
* `count` is an association list in Python dict insertion order (first
  occurrence of a key fixes its position; re-assignment keeps it and the
  value, the premise length, is identical anyway); the key
  `(tuple(clause[0]), clause[1])` is embedded as the clause itself, the
  `tuple(...)` conversion only changes the container type.  Values are
  `Int`, as in Python they can go below zero.
* `agenda` is a Python list used as a stack (`pop()` takes the last
  element, `append` adds at the end); it is kept reversed, so `pop` is
  head-matching and `append` prepends.
* `inferred` maps every symbol to False and popped atoms to True, and
  `_infer` returns the True entries; the embedding tracks the set of popped
  atoms directly (False entries never reach the result). -/

/-- `{(tuple(clause[0]), clause[1]): len(clause[0]) for clause in clauses}`. -/
def countInit [DecidableEq α] (clauses : List (List α × α)) :
    List ((List α × α) × Int) :=
  clauses.foldl
    (fun d c =>
      if d.any fun kv => kv.1 = c then d.map fun kv => if kv.1 = c then (kv.1, (c.1.length : Int)) else kv
      else d ++ [(c, (c.1.length : Int))])
    []

/-- One `for clause in count:` pass for the popped atom `p`, returning the
updated counts, the grown `was_in_agenda` set, and the atoms appended to
the agenda (in append order). -/
def fcScan [DecidableEq α] (p : α) :
    List ((List α × α) × Int) → Finset α → List α →
      List ((List α × α) × Int) × Finset α × List α
  | [], was, app => ([], was, app)
  | (key, n) :: rest, was, app =>
    if p ∈ key.1 then
      if n - 1 = 0 ∧ key.2 ∉ was then
        let r := fcScan p rest (insert key.2 was) (app ++ [key.2])
        ((key, n - 1) :: r.1, r.2)
      else
        let r := fcScan p rest was app
        ((key, n - 1) :: r.1, r.2)
    else
      let r := fcScan p rest was app
      ((key, n) :: r.1, r.2)

/-- The `while agenda:` loop; the result is the set of atoms marked True. -/
def fcLoop [DecidableEq α] :
    Nat → List ((List α × α) × Int) → List α → Finset α → Finset α → Option (Finset α)
  | 0, _, _, _, _ => none
  | _ + 1, _, [], _, inf => some inf
  | fuel + 1, count, p :: restRev, was, inf =>
    let r := fcScan p count was []
    fcLoop fuel r.1 (r.2.2.reverse ++ restRev) r.2.1 (insert p inf)

/-- `ForwardChainingReasoner(kb)._infer()` (as the set of inferred atoms). -/
def fcInfer [DecidableEq α] (kb : KB α) (fuel : Nat) : Option (Finset α) :=
  fcLoop fuel (countInit kb.clauses) kb.facts.reverse kb.facts.toFinset ∅

/-- `ForwardChainingReasoner(kb).query(symbol)`. -/
def fcQuery [DecidableEq α] (kb : KB α) (fuel : Nat) (a : α) : Option Bool :=
  (fcInfer kb fuel).map fun inf => a ∈ inf

/-! ### `BackwardChainingReasoner`

```python
def __init__(self, kb: KB):
    super().__init__(kb)
    self.inferred = {symbol: None for symbol in self.kb.symbols}
    for clause in filter(lambda c: not c[0], self.kb.clauses):
        self.inferred[clause[1]] = True

def query(self, symbol) -> bool:
    if symbol in self.inferred and self.inferred[symbol] != None:
        return self.inferred[symbol]
    if symbol not in self.kb.symbols:
        return False
    return self.recursive_query(symbol, set(symbol))

def recursive_query(self, symbol, to_check) -> bool:
    if symbol in self.inferred and self.inferred[symbol] != None:
        if symbol in to_check:
            to_check.remove(symbol)
        return self.inferred[symbol]
    one_clause_met = False
    for clause in filter(lambda c: c[1] == symbol, self.kb.clauses):
        all_premises_met = True
        for premise in clause[0]:
            if premise in to_check:
                all_premises_met = False
                break
            to_check.add(premise)
            if not self.recursive_query(premise, to_check):
                all_premises_met = False
                break
        if all_premises_met:
            one_clause_met = True
            break
    self.inferred[symbol] = one_clause_met
    if symbol in to_check:
        to_check.remove(symbol)
    return one_clause_met
```

Embedding choices:
* the memo `self.inferred` is `α → Option Bool` (`none` covering both
  "absent" and "None", which the code never distinguishes) and the mutable
  `to_check` set is threaded through explicitly in a `BCSt` record, since
  Python mutates one shared set across all recursive calls;
* `set(symbol)` builds the set of the *characters* of the string `symbol`;
  for the one-character atoms used in the notebook's KBs (and in the
  concrete KBs below) this is `{symbol}`, which is how it is embedded;
* the clause filter/`break` structure becomes `tryClausesF` (first clause
  concluding the symbol whose premises all hold wins) and the premise
  loop with its in-progress guard and short-circuit becomes `tryPremisesF`;
  both are parametrized by the recursive-call function so that the
  recursion is structural in the fuel. -/

structure BCSt (α : Type) where
  memo : α → Option Bool
  toCheck : Finset α

def seedMemo [DecidableEq α] (kb : KB α) : α → Option Bool :=
  fun a => if a ∈ kb.facts then some true else none

/-- The `for premise in clause[0]:` loop (`q` is the recursive call). -/
def tryPremisesF [DecidableEq α] (q : α → BCSt α → Option (Bool × BCSt α)) :
    List α → BCSt α → Option (Bool × BCSt α)
  | [], st => some (true, st)
  | p :: ps, st =>
    if p ∈ st.toCheck then some (false, st)
    else
      match q p ⟨st.memo, insert p st.toCheck⟩ with
      | none => none
      | some (b, st') => if b then tryPremisesF q ps st' else some (false, st')

/-- The `for clause in filter(lambda c: c[1] == symbol, ...):` loop. -/
def tryClausesF [DecidableEq α] (q : α → BCSt α → Option (Bool × BCSt α)) (s : α) :
    List (List α × α) → BCSt α → Option (Bool × BCSt α)
  | [], st => some (false, st)
  | c :: rest, st =>
    if c.2 = s then
      match tryPremisesF q c.1 st with
      | none => none
      | some (true, st') => some (true, st')
      | some (false, st') => tryClausesF q s rest st'
    else tryClausesF q s rest st

def recursive_query [DecidableEq α] (kb : KB α) :
    Nat → α → BCSt α → Option (Bool × BCSt α)
  | 0, _, _ => none
  | fuel + 1, s, st =>
    match st.memo s with
    | some b => some (b, ⟨st.memo, st.toCheck.erase s⟩)
    | none =>
      match tryClausesF (recursive_query kb fuel) s kb.clauses st with
      | none => none
      | some (b, st') =>
        some (b, ⟨fun x => if x = s then some b else st'.memo x, st'.toCheck.erase s⟩)

/-- `BackwardChainingReasoner(kb).query(symbol)` on a fresh reasoner.
The fuel `kb.symbols.card + 1` is sufficient (see the C9 theorem). -/
def bcQuery [DecidableEq α] (kb : KB α) (a : α) : Option Bool :=
  match seedMemo kb a with
  | some b => some b
  | none =>
    if a ∈ kb.symbols then
      (recursive_query kb (kb.symbols.card + 1) a ⟨seedMemo kb, {a}⟩).map Prod.fst
    else some false

/-! ### The KB on which the two reasoners disagree

Atoms (single characters in Python, `Nat` here): `u = 0`, `w = 1`, `a = 2`,
`t = 3`.  Clauses, in order: `u → w`, `a → w`, `w → u`, `w ∧ u → t`,
`→ a` (fact).  Minimal model: `a` is a fact, `a → w` gives `w`, `w → u`
gives `u`, `w ∧ u → t` gives `t` — every atom is entailed. -/

def kbC1 : KB Nat :=
  ⟨[([0], 1), ([2], 1), ([1], 0), ([1, 0], 3), ([], 2)], {0, 1, 2, 3}⟩

example : fcQuery kbC1 50 3 = some true := by rfl
example : bcQuery kbC1 3 = some false := by rfl

/-- C1: the two reasoners are not equivalent, and backward chaining does not
implement minimal-model semantics.  On `kbC1`, forward chaining proves `t`
(it is in the minimal model: the `Entails` derivation), but backward
chaining answers false: proving `t`'s premise `w` first explores the clause
`u → w`, where the in-progress guard blocks `u`'s only clause `w → u` and
`u` is then *memoized* as false; after `w` succeeds through `a → w`, the
premise `u` of `w ∧ u → t` reads the stale false memo. -/
theorem C1_fc_bc_disagree :
    fcQuery kbC1 50 3 = some true ∧ bcQuery kbC1 3 = some false ∧ Entails kbC1 3 := by
  refine ⟨by rfl, by rfl, ?_⟩
  have ha : Entails kbC1 2 := .step [] 2 (by decide) (fun p hp => absurd hp (by simp))
  have hw : Entails kbC1 1 := by
    refine .step [2] 1 (by decide) (fun p hp => ?_)
    have : p = 2 := by simpa using hp
    subst this
    exact ha
  have hu : Entails kbC1 0 := by
    refine .step [1] 0 (by decide) (fun p hp => ?_)
    have : p = 1 := by simpa using hp
    subst this
    exact hw
  refine .step [1, 0] 3 (by decide) (fun p hp => ?_)
  have : p = 1 ∨ p = 0 := by simpa using hp
  rcases this with h1 | h0
  · subst h1; exact hw
  · subst h0; exact hu

/-! ## C9: backward chaining terminates on every finite KB

The key invariants: a returning `recursive_query(symbol, to_check)` call
leaves `to_check` exactly as it found it minus `symbol` (every premise it
added was removed again), and the recursion depth is bounded because each
nested call shrinks `symbols \ to_check` by one — so fuel
`|symbols| + 1` always suffices. -/

theorem tryPremisesF_toCheck [DecidableEq α]
    (q : α → BCSt α → Option (Bool × BCSt α))
    (hq : ∀ p st b st', q p st = some (b, st') → st'.toCheck = st.toCheck.erase p) :
    ∀ ps (st : BCSt α) r st', tryPremisesF q ps st = some (r, st') →
      st'.toCheck = st.toCheck := by
  intro ps
  induction ps with
  | nil =>
    intro st r st' h
    simp only [tryPremisesF] at h
    cases h
    rfl
  | cons p ps ih =>
    intro st r st' h
    simp only [tryPremisesF] at h
    split at h
    · cases h; rfl
    · rename_i hp
      split at h
      · exact absurd h (by simp)
      · rename_i b st1 heq
        have h1 : st1.toCheck = (insert p st.toCheck).erase p := hq p _ b st1 heq
        have h1' : st1.toCheck = st.toCheck := by
          rw [h1, Finset.erase_insert hp]
        split at h
        · rw [ih st1 r st' h, h1']
        · cases h; rw [h1']

theorem tryClausesF_toCheck [DecidableEq α]
    (q : α → BCSt α → Option (Bool × BCSt α))
    (hq : ∀ p st b st', q p st = some (b, st') → st'.toCheck = st.toCheck.erase p)
    (s : α) :
    ∀ cs (st : BCSt α) r st', tryClausesF q s cs st = some (r, st') →
      st'.toCheck = st.toCheck := by
  intro cs
  induction cs with
  | nil =>
    intro st r st' h
    simp only [tryClausesF] at h
    cases h
    rfl
  | cons c cs ih =>
    intro st r st' h
    simp only [tryClausesF] at h
    split at h
    · split at h
      · exact absurd h (by simp)
      · rename_i st1 heq
        cases h
        exact tryPremisesF_toCheck q hq c.1 st true st' heq
      · rename_i st1 heq
        rw [ih st1 r st' h, tryPremisesF_toCheck q hq c.1 st false st1 heq]
    · exact ih st r st' h

theorem recursive_query_toCheck [DecidableEq α] (kb : KB α) :
    ∀ fuel s (st : BCSt α) b st', recursive_query kb fuel s st = some (b, st') →
      st'.toCheck = st.toCheck.erase s := by
  intro fuel
  induction fuel with
  | zero => intro s st b st' h; simp [recursive_query] at h
  | succ fuel ih =>
    intro s st b st' h
    simp only [recursive_query] at h
    split at h
    · cases h; rfl
    · split at h
      · exact absurd h (by simp)
      · rename_i b1 st1 heq
        have hres := tryClausesF_toCheck (recursive_query kb fuel)
          (fun p st b st' hh => ih p st b st' hh) s kb.clauses st b1 st1 heq
        cases h
        show st1.toCheck.erase s = st.toCheck.erase s
        rw [hres]

theorem tryPremisesF_some [DecidableEq α] (kb : KB α) (n : Nat)
    (q : α → BCSt α → Option (Bool × BCSt α))
    (hqR : ∀ p st b st', q p st = some (b, st') → st'.toCheck = st.toCheck.erase p)
    (hqS : ∀ p (st : BCSt α), (kb.symbols \ st.toCheck).card < n → (q p st).isSome) :
    ∀ ps (st : BCSt α), (∀ p ∈ ps, p ∈ kb.symbols) →
      (kb.symbols \ st.toCheck).card ≤ n → (tryPremisesF q ps st).isSome := by
  intro ps
  induction ps with
  | nil => intro st _ _; simp [tryPremisesF]
  | cons p ps ih =>
    intro st hps hcard
    simp only [tryPremisesF]
    split
    · simp
    · rename_i hp
      have hpmem : p ∈ kb.symbols \ st.toCheck :=
        Finset.mem_sdiff.mpr ⟨hps p (by simp), hp⟩
      have hbound : (kb.symbols \ (insert p st.toCheck : Finset α)).card < n := by
        have h1 : kb.symbols \ insert p st.toCheck = (kb.symbols \ st.toCheck).erase p := by
          ext x
          simp only [Finset.mem_sdiff, Finset.mem_erase, Finset.mem_insert]
          tauto
        have h2 : 1 ≤ (kb.symbols \ st.toCheck).card :=
          Finset.card_pos.mpr ⟨p, hpmem⟩
        rw [h1, Finset.card_erase_of_mem hpmem]
        omega
      have hsome := hqS p ⟨st.memo, insert p st.toCheck⟩ hbound
      cases heq : q p ⟨st.memo, insert p st.toCheck⟩ with
      | none => rw [heq] at hsome; simp at hsome
      | some r =>
        rcases r with ⟨b, st1⟩
        cases b with
        | true =>
          have hres : st1.toCheck = st.toCheck := by
            have := hqR p _ _ _ heq
            rw [this, Finset.erase_insert hp]
          show (tryPremisesF q ps st1).isSome = true
          refine ih st1 (fun x hx => hps x (by simp [hx])) ?_
          rw [hres]
          exact hcard
        | false => simp

theorem tryClausesF_some [DecidableEq α] (kb : KB α) (n : Nat)
    (q : α → BCSt α → Option (Bool × BCSt α))
    (hqR : ∀ p st b st', q p st = some (b, st') → st'.toCheck = st.toCheck.erase p)
    (hqS : ∀ p (st : BCSt α), (kb.symbols \ st.toCheck).card < n → (q p st).isSome)
    (s : α) :
    ∀ cs (st : BCSt α), (∀ c ∈ cs, ∀ p ∈ c.1, p ∈ kb.symbols) →
      (kb.symbols \ st.toCheck).card ≤ n → (tryClausesF q s cs st).isSome := by
  intro cs
  induction cs with
  | nil => intro st _ _; simp [tryClausesF]
  | cons c cs ih =>
    intro st hcs hcard
    simp only [tryClausesF]
    split
    · have hsome := tryPremisesF_some kb n q hqR hqS c.1 st
        (fun p hp => hcs c (by simp) p hp) hcard
      cases heq : tryPremisesF q c.1 st with
      | none => rw [heq] at hsome; simp at hsome
      | some r =>
        rcases r with ⟨b, st1⟩
        cases b with
        | true => rfl
        | false =>
          show (tryClausesF q s cs st1).isSome = true
          refine ih st1 (fun x hx => hcs x (by simp [hx])) ?_
          rw [tryPremisesF_toCheck q hqR c.1 st false st1 heq]
          exact hcard
    · exact ih st (fun x hx => hcs x (by simp [hx])) hcard

theorem recursive_query_some [DecidableEq α] (kb : KB α)
    (hwf : ∀ c ∈ kb.clauses, ∀ p ∈ c.1, p ∈ kb.symbols) :
    ∀ fuel s (st : BCSt α), (kb.symbols \ st.toCheck).card < fuel →
      (recursive_query kb fuel s st).isSome := by
  intro fuel
  induction fuel with
  | zero => intro s st h; exact absurd h (Nat.not_lt_zero _)
  | succ fuel ih =>
    intro s st hcard
    simp only [recursive_query]
    split
    · simp
    · have hsome := tryClausesF_some kb fuel (recursive_query kb fuel)
        (fun p st b st' hh => recursive_query_toCheck kb fuel p st b st' hh)
        (fun p st hh => ih p st hh) s kb.clauses st hwf (by omega)
      cases heq : tryClausesF (recursive_query kb fuel) s kb.clauses st with
      | none => rw [heq] at hsome; simp at hsome
      | some r => rcases r with ⟨b, st1⟩; rfl

/-- C9: on every finite KB whose clause premises are drawn from its symbol
set — cyclic dependencies included — a backward-chaining query terminates
with a boolean: fuel `|symbols| + 1` bounds the recursion because a query
for an atom already in the in-progress `to_check` set returns false for
that branch instead of recursing. -/
theorem C9_bc_query_terminates [DecidableEq α] (kb : KB α)
    (hwf : ∀ c ∈ kb.clauses, ∀ p ∈ c.1, p ∈ kb.symbols) (a : α) :
    (bcQuery kb a).isSome := by
  unfold bcQuery
  split
  · rfl
  · split
    · have h1 : (kb.symbols \ ({a} : Finset α)).card < kb.symbols.card + 1 := by
        have := Finset.card_le_card (Finset.sdiff_subset (s := kb.symbols) (t := {a}))
        omega
      have hsome := recursive_query_some kb hwf (kb.symbols.card + 1) a
        ⟨seedMemo kb, {a}⟩ h1
      cases heq : recursive_query kb (kb.symbols.card + 1) a ⟨seedMemo kb, {a}⟩ with
      | none => rw [heq] at hsome; simp at hsome
      | some r => rfl
    · rfl

/-- A cyclic KB: `q → p` and `p → q` (`p = 0`, `q = 1`): the query for `p`
terminates (with false) despite the cycle. -/
def kbCyc : KB Nat := ⟨[([0], 1), ([1], 0)], {0, 1}⟩

example : bcQuery kbCyc 0 = some false := by rfl

/-- Witness for C9: the cyclic two-clause KB satisfies the premise-closure
hypothesis and its query terminates. -/
theorem C9_witness :
    (∀ c ∈ kbCyc.clauses, ∀ p ∈ c.1, p ∈ kbCyc.symbols) ∧
      (bcQuery kbCyc 0).isSome := by
  refine ⟨by decide, C9_bc_query_terminates kbCyc (by decide) 0⟩
